import Mathlib

/-!
Verification of the razorpay-to-sheets pipeline.

This file gives a shallow embedding, in Lean, of the core logic of the two
scripts `razorpay_to_sheets.py` and `extract_partial_payments.py`:

* the pagination loop of `fetch_all_payment_links`;
* the record normalizer of `process_payment_links`, with its timestamp
  formatter `format_timestamp` and the minor-unit monetary conversion;
* the report filter `extract_partial_payments`, its fuzzy column resolution
  and its summary aggregator `generate_summary`;
* the sheet reconciliation of `create_or_update_sheet_tab` and
  `update_google_sheet`.

Machine floats of the source are embedded as rationals, JSON-ish field
values as an explicit variant type, and the mutable worksheet as a list of
rows.  Theorems about these definitions settle the specification claims.
-/

/-! ## List helpers -/

/-- Substring test on character lists, mirroring the Python membership test
on strings: the pattern occurs inside the subject. -/
def containsSeq (pat : List Char) : List Char → Bool
  | [] => pat.isEmpty
  | c :: rest => pat.isPrefixOf (c :: rest) || containsSeq pat rest

/-- Lowercase a string character by character, mirroring `str.lower` on the
ASCII column names used by the scripts. -/
def lowerStr (s : String) : String := ⟨s.data.map Char.toLower⟩

/-- The Python test `pat in s.lower()` used by the fuzzy column matcher. -/
def fuzzyHas (s pat : String) : Bool := containsSeq pat.data (lowerStr s).data

/-- Splitting a list by a Boolean predicate preserves the sum of any
rational-valued projection. -/
theorem sum_map_filter_partition {α : Type} (p : α → Bool) (f : α → ℚ) (l : List α) :
    ((l.filter p).map f).sum + ((l.filter (fun x => !p x)).map f).sum = (l.map f).sum := by
  induction l with
  | nil => simp
  | cons x l ih =>
    by_cases h : p x = true
    · simp only [List.filter_cons, h, if_pos, List.map_cons, List.sum_cons, Bool.not_true,
        Bool.false_eq_true, if_false]
      rw [← ih]
      ring
    · simp only [List.filter_cons, h, Bool.false_eq_true, if_false, Bool.not_eq_true'] at *
      simp only [eq_self_iff_true, if_true, List.map_cons, List.sum_cons, h, Bool.not_false]
      rw [← ih]
      ring

/-- Summing an equality indicator over a duplicate-free list of keys that
contains the key picks out exactly one contribution. -/
theorem sum_indicator_nodup {α : Type} [DecidableEq α] (keys : List α) (k : α) (v : ℚ)
    (hnd : keys.Nodup) (hk : k ∈ keys) :
    (keys.map (fun c => if k = c then v else 0)).sum = v := by
  induction keys with
  | nil => cases hk
  | cons c cs ih =>
    rcases List.mem_cons.mp hk with h | h
    · subst h
      simp only [List.map_cons, List.sum_cons, if_pos rfl]
      have hnotin : k ∉ cs := (List.nodup_cons.mp hnd).1
      have hz : (cs.map (fun c => if k = c then v else 0)).sum = 0 := by
        apply List.sum_eq_zero
        intro x hx
        rcases List.mem_map.mp hx with ⟨c', hc', rfl⟩
        have : k ≠ c' := fun he => hnotin (he ▸ hc')
        simp [this]
      simp [hz]
    · have hne : k ≠ c := by
        rintro rfl
        exact (List.nodup_cons.mp hnd).1 h
      simp only [List.map_cons, List.sum_cons, if_neg hne]
      rw [ih (List.nodup_cons.mp hnd).2 h]
      ring

/-- Grouping by a key function partitions the sum: summing group sums over a
duplicate-free key list covering the data gives the total sum. -/
theorem sum_groups_eq {α β : Type} [DecidableEq β] (keys : List β) (key : α → β) (f : α → ℚ)
    (l : List α) (hnd : keys.Nodup) (hall : ∀ x ∈ l, key x ∈ keys) :
    (keys.map (fun c => ((l.filter (fun x => key x = c)).map f).sum)).sum = (l.map f).sum := by
  induction l with
  | nil => simp
  | cons x l ih =>
    have hall' : ∀ y ∈ l, key y ∈ keys := fun y hy => hall y (List.mem_cons_of_mem _ hy)
    have hx : key x ∈ keys := hall x (List.mem_cons_self _ _)
    have hsplit : ∀ c : β,
        (((x :: l).filter (fun y => key y = c)).map f).sum =
          (if key x = c then f x else 0) + ((l.filter (fun y => key y = c)).map f).sum := by
      intro c
      by_cases h : key x = c
      · simp [List.filter_cons, h]
      · simp [List.filter_cons, h]
    calc (keys.map (fun c => (((x :: l).filter (fun y => key y = c)).map f).sum)).sum
        = (keys.map (fun c => (if key x = c then f x else 0)
            + ((l.filter (fun y => key y = c)).map f).sum)).sum := by
          congr 1
          exact List.map_congr_left (fun c _ => hsplit c)
      _ = (keys.map (fun c => if key x = c then f x else 0)).sum
            + (keys.map (fun c => ((l.filter (fun y => key y = c)).map f).sum)).sum :=
          List.sum_map_add
      _ = f x + (l.map f).sum := by
          rw [sum_indicator_nodup keys (key x) (f x) hnd hx, ih hall']
      _ = ((x :: l).map f).sum := by simp

/-! ## Paginator: fetch_all_payment_links (razorpay_to_sheets.py, lines 140-223)

The while-loop requests pages with parameters count=100 and skip, appends
the page to the accumulator, stops as soon as a page holds fewer than
`count` records, and otherwise advances skip by `count`.  The remote
endpoint is embedded as a function from the skip offset to the returned
page; `fuel` bounds the number of iterations so the loop is total, and the
theorems only speak about runs with enough fuel.  Request count and the
sequence of requested offsets are carried along as observable state. -/

structure FetchResult (α : Type) where
  links : List α
  requests : Nat
  offsets : List Nat
deriving DecidableEq

/-- The body of the while-loop in `fetch_all_payment_links`. -/
def fetchLoop {α : Type} (pageAt : Nat → List α) (count : Nat) :
    Nat → Nat → Nat → List α → List Nat → FetchResult α
  | 0, _skip, reqCount, acc, offs => ⟨acc, reqCount, offs⟩
  | fuel + 1, skip, reqCount, acc, offs =>
    if (pageAt skip).length < count then
      ⟨acc ++ pageAt skip, reqCount + 1, offs ++ [skip]⟩
    else
      fetchLoop pageAt count fuel (skip + count) (reqCount + 1) (acc ++ pageAt skip)
        (offs ++ [skip])

/-- fetch_all_payment_links: page size 100, first request at offset 0. -/
def fetch_all_payment_links {α : Type} (pageAt : Nat → List α) (fuel : Nat) : FetchResult α :=
  fetchLoop pageAt 100 fuel 0 0 [] []

theorem fetchLoop_spec {α : Type} (pageAt : Nat → List α) (k : Nat) :
    ∀ (fuel j reqCount : Nat) (acc : List α) (offs : List Nat),
      (∀ i < k, (pageAt (100 * (j + i))).length = 100) →
      (pageAt (100 * (j + k))).length < 100 →
      k < fuel →
      fetchLoop pageAt 100 fuel (100 * j) reqCount acc offs =
        ⟨acc ++ ((List.range (k + 1)).map (fun i => pageAt (100 * (j + i)))).flatten,
          reqCount + (k + 1),
          offs ++ (List.range (k + 1)).map (fun i => 100 * (j + i))⟩ := by
  induction k with
  | zero =>
    intro fuel j reqCount acc offs _hfull hshort hfuel
    match fuel, hfuel with
    | fuel + 1, _ =>
      have h0 : (pageAt (100 * j)).length < 100 := by simpa using hshort
      simp [fetchLoop, h0, List.range_succ]
  | succ k ih =>
    intro fuel j reqCount acc offs hfull hshort hfuel
    match fuel, hfuel with
    | fuel + 1, hf =>
      have hfull0 : (pageAt (100 * j)).length = 100 := by
        simpa using hfull 0 (Nat.succ_pos k)
      have hnotshort : ¬(pageAt (100 * j)).length < 100 := by omega
      have hstep : 100 * j + 100 = 100 * (j + 1) := by ring
      have hfull' : ∀ i < k, (pageAt (100 * ((j + 1) + i))).length = 100 := by
        intro i hi
        have := hfull (i + 1) (by omega)
        have harg : j + (i + 1) = (j + 1) + i := by ring
        rwa [harg] at this
      have hshort' : (pageAt (100 * ((j + 1) + k))).length < 100 := by
        have harg : j + (k + 1) = (j + 1) + k := by ring
        rwa [harg] at hshort
      have hrec := ih fuel (j + 1) (reqCount + 1) (acc ++ pageAt (100 * j))
        (offs ++ [100 * j]) hfull' hshort' (by omega)
      simp only [fetchLoop, if_neg hnotshort, hstep, hrec]
      have hfun : ∀ i ∈ List.range (k + 1),
          pageAt (100 * ((j + 1) + i)) = pageAt (100 * (j + (i + 1))) := by
        intro i _
        have : (j + 1) + i = j + (i + 1) := by ring
        rw [this]
      have hfun2 : ∀ i ∈ List.range (k + 1), 100 * ((j + 1) + i) = 100 * (j + (i + 1)) := by
        intro i _
        have : (j + 1) + i = j + (i + 1) := by ring
        rw [this]
      simp only [FetchResult.mk.injEq]
      refine ⟨?_, by omega, ?_⟩
      · rw [List.map_congr_left hfun, List.range_succ_eq_map (k + 1)]
        simp only [List.map_cons, List.flatten_cons, List.map_map, Nat.add_zero,
          List.append_assoc]
        have hcomp : ((fun i => pageAt (100 * (j + i))) ∘ Nat.succ)
            = fun a => pageAt (100 * (j + (a + 1))) := by
          funext a
          simp [Function.comp, Nat.succ_eq_add_one]
        rw [hcomp]
      · rw [List.map_congr_left hfun2, List.range_succ_eq_map (k + 1)]
        simp only [List.map_cons, List.map_map, Nat.add_zero, List.append_assoc,
          List.singleton_append]
        have hcomp : ((fun i => 100 * (j + i)) ∘ Nat.succ)
            = fun a => 100 * (j + (a + 1)) := by
          funext a
          simp [Function.comp, Nat.succ_eq_add_one]
        rw [hcomp]

/-- C2: the pagination loop requests pages of fixed size 100 starting at
offset 0, advances the offset by 100 after each full page, stops at the
first page with strictly fewer than 100 records, and returns the in-order
concatenation of all pages: with full pages up to index k and a short page
at index k it issues exactly k+1 requests at offsets 0, 100, ..., 100*k
and accumulates the join of the pages in order. -/
theorem fetch_pagination_c2 {α : Type} (pageAt : Nat → List α) (k fuel : Nat)
    (hfull : ∀ i < k, (pageAt (100 * i)).length = 100)
    (hshort : (pageAt (100 * k)).length < 100)
    (hfuel : k < fuel) :
    fetch_all_payment_links pageAt fuel =
      ⟨((List.range (k + 1)).map (fun i => pageAt (100 * i))).flatten,
        k + 1,
        (List.range (k + 1)).map (fun i => 100 * i)⟩ := by
  have h := fetchLoop_spec pageAt k fuel 0 0 [] [] (by simpa using hfull)
    (by simpa using hshort) hfuel
  have h0 : (0 : Nat) = 100 * 0 := by ring
  rw [fetch_all_payment_links, h0, h]
  simp

/-- Demo endpoint for the C2 witness: pages of 100, 100, then 50 records,
carrying the record indices 0..249. -/
def demoPage (skip : Nat) : List Nat :=
  if skip < 200 then (List.range 100).map (fun i => skip + i)
  else (List.range 50).map (fun i => 200 + i)

set_option maxRecDepth 10000 in
/-- Witness for C2 at a concrete endpoint: responses of 100, 100 and 50
records yield exactly 3 requests at offsets 0, 100, 200 and the 250
records in order with no duplicates or gaps. -/
theorem fetch_pagination_c2_witness :
    fetch_all_payment_links demoPage 5 = ⟨List.range 250, 3, [0, 100, 200]⟩ := by
  have h := fetch_pagination_c2 demoPage 2 5 (by decide) (by decide) (by decide)
  rw [h]
  decide

/-! ## Field values and numeral parsing

Raw API records are semi-structured: a field may be absent, JSON null,
a number or a string.  `pyFloat` embeds Python float() applied to
`link.get(key, 0)`; `parseNumber` models the decimal-numeral parsing shared
by float() on strings and pandas to_numeric. -/

inductive JVal where
  | absent
  | null
  | num (n : Int)
  | str (s : String)
deriving DecidableEq

/-- Digits consumed from the front of a character list, as numeric values,
together with the unconsumed remainder. -/
def takeDigits : List Char → List Nat × List Char
  | [] => ([], [])
  | c :: rest =>
    if c.isDigit then
      let r := takeDigits rest
      ((c.toNat - 48) :: r.1, r.2)
    else ([], c :: rest)

/-- Value of a digit list read as a decimal integer. -/
def natOfDigits (ds : List Nat) : Nat := ds.foldl (fun a d => 10 * a + d) 0

/-- Value of a digit list read as a decimal fraction. -/
def fracOfDigits (ds : List Nat) : ℚ := ds.foldr (fun d a => ((d : ℚ) + a) / 10) 0

/-- Unsigned decimal numeral: digits, then an optional fractional part. -/
def parseUnsigned (l : List Char) : Option ℚ :=
  let p := takeDigits l
  if p.1.isEmpty then none
  else
    match p.2 with
    | [] => some (natOfDigits p.1 : ℚ)
    | '.' :: rest =>
      let q := takeDigits rest
      if q.2.isEmpty then some ((natOfDigits p.1 : ℚ) + fracOfDigits q.1) else none
    | _ => none

/-- Decimal numeral parsing: an optional minus sign, digits, an optional
fractional part; anything else fails. -/
def parseNumber (s : String) : Option ℚ :=
  match s.data with
  | '-' :: rest => (parseUnsigned rest).map (fun q => -q)
  | l => parseUnsigned l

/-- Python float(x) applied to link.get(key, 0): an absent key gives the
default 0, a JSON null (Python None) raises TypeError, a non-numeric
string raises ValueError; raising is modelled as none. -/
def pyFloat : JVal → Option ℚ
  | JVal.absent => some 0
  | JVal.null => none
  | JVal.num n => some (n : ℚ)
  | JVal.str s => parseNumber s

/-! ## Timestamp formatting: format_timestamp (razorpay_to_sheets.py, lines 225-237)

datetime.fromtimestamp(ts, UTC).isoformat() renders the civil date from
the day count (the standard era-based civil-from-days computation) and the
time of day from the remainder, as YYYY-MM-DDTHH:MM:SS+00:00.  It succeeds
exactly for timestamps whose UTC year lies in 1..9999; outside that range
it raises, which `format_timestamp` catches, returning the default. -/

/-- Smallest timestamp datetime.fromtimestamp(ts, UTC) accepts
(0001-01-01T00:00:00). -/
def MIN_TS : Int := -62135596800

/-- Largest timestamp datetime.fromtimestamp(ts, UTC) accepts
(9999-12-31T23:59:59). -/
def MAX_TS : Int := 253402300799

/-- Civil date (year, month, day) from a count of days since the Unix
epoch, by the era-based algorithm used for proleptic-Gregorian date
arithmetic. -/
def civilFromDays (days : Int) : Int × Int × Int :=
  let z := days + 719468
  let era := Int.fdiv z 146097
  let doe := z - era * 146097
  let yoe := (doe - doe / 1460 + doe / 36524 - doe / 146096) / 365
  let y := yoe + era * 400
  let doy := doe - (365 * yoe + yoe / 4 - yoe / 100)
  let mp := (5 * doy + 2) / 153
  let d := doy - (153 * mp + 2) / 5 + 1
  let m := if mp < 10 then mp + 3 else mp - 9
  (if m ≤ 2 then y + 1 else y, m, d)

/-- One decimal digit character (of n mod 10). -/
def digit (n : Nat) : Char := Char.ofNat (48 + n % 10)

/-- Two-digit zero-padded rendering of n < 100. -/
def twoDigits (n : Nat) : List Char := [digit (n / 10), digit n]

/-- Four-digit zero-padded rendering of n < 10000. -/
def fourDigits (n : Nat) : List Char :=
  [digit (n / 1000), digit (n / 100), digit (n / 10), digit n]

/-- ISO-8601 UTC rendering of an in-range Unix timestamp, as produced by
datetime.fromtimestamp(ts, UTC).isoformat(). -/
def isoUtcOfTimestamp (ts : Int) : String :=
  let days := Int.fdiv ts 86400
  let tod := (Int.emod ts 86400).toNat
  let c := civilFromDays days
  ⟨fourDigits c.1.toNat ++ '-' :: twoDigits c.2.1.toNat ++ '-' :: twoDigits c.2.2.toNat
    ++ 'T' :: twoDigits (tod / 3600) ++ ':' :: twoDigits (tod / 60 % 60)
    ++ ':' :: twoDigits (tod % 60) ++ ['+', '0', '0', ':', '0', '0']⟩

/-- Python falsiness of the guard `if not timestamp or timestamp == 0`. -/
def isFalsyTs : JVal → Bool
  | JVal.absent => true
  | JVal.null => true
  | JVal.num n => n == 0
  | JVal.str s => s.isEmpty

/-- format_timestamp: default empty string on a falsy value, on a
non-numeric value (TypeError) and on an out-of-range timestamp
(ValueError or OverflowError); the ISO-8601 UTC string otherwise. -/
def format_timestamp (v : JVal) : String :=
  if isFalsyTs v then ""
  else
    match v with
    | JVal.num n => if MIN_TS ≤ n ∧ n ≤ MAX_TS then isoUtcOfTimestamp n else ""
    | _ => ""

theorem digit_isDigit (n : Nat) : (digit n).isDigit = true := by
  have h10 : ∀ m < 10, (Char.ofNat (48 + m)).isDigit = true := by decide
  have := h10 (n % 10) (Nat.mod_lt _ (by omega))
  simpa [digit] using this

theorem isoUtc_length (ts : Int) : (isoUtcOfTimestamp ts).length = 25 := rfl

theorem isoUtc_utc_suffix (ts : Int) :
    (isoUtcOfTimestamp ts).data.drop 19 = ['+', '0', '0', ':', '0', '0'] := rfl

theorem isoUtc_year_digits (ts : Int) :
    ((isoUtcOfTimestamp ts).data.take 4).all Char.isDigit = true := by
  show ([digit _, digit _, digit _, digit _].all Char.isDigit) = true
  simp [List.all_cons, digit_isDigit]

/-- C9: the timestamp formatter is total over the field-value space and
never raises; it returns the default empty string on falsy values
(absent, null, zero, empty string), on non-numeric values and on
out-of-range timestamps, and on every remaining value — a nonzero numeric
timestamp within the datetime range — it returns the ISO-8601 UTC
rendering: a 25-character string with digits in the year positions ending
in the +00:00 UTC offset.  The four cases cover the whole input space, so
a valid timestamp is forced to render as the ISO string, never as the
default. -/
theorem format_timestamp_c9 (v : JVal) :
    (isFalsyTs v = true → format_timestamp v = "")
    ∧ (∀ s : String, v = JVal.str s → format_timestamp v = "")
    ∧ (∀ n : Int, v = JVal.num n → ¬(MIN_TS ≤ n ∧ n ≤ MAX_TS) →
        format_timestamp v = "")
    ∧ (∀ n : Int, v = JVal.num n → n ≠ 0 → MIN_TS ≤ n → n ≤ MAX_TS →
        format_timestamp v = isoUtcOfTimestamp n
        ∧ (format_timestamp v).length = 25
        ∧ (format_timestamp v).data.drop 19 = ['+', '0', '0', ':', '0', '0']
        ∧ ((format_timestamp v).data.take 4).all Char.isDigit = true) := by
  refine ⟨?_, ?_, ?_, ?_⟩
  · intro h
    simp [format_timestamp, h]
  · rintro s rfl
    by_cases hf : isFalsyTs (JVal.str s) = true
    · simp [format_timestamp, hf]
    · simp [format_timestamp, hf]
  · rintro n rfl hr
    by_cases hf : isFalsyTs (JVal.num n) = true
    · simp [format_timestamp, hf]
    · simp [format_timestamp, hf, hr]
  · rintro n rfl hn hlo hhi
    have hf : isFalsyTs (JVal.num n) = false := by
      simp [isFalsyTs, hn]
    have hfmt : format_timestamp (JVal.num n) = isoUtcOfTimestamp n := by
      simp [format_timestamp, hf, hlo, hhi]
    exact ⟨hfmt, by rw [hfmt]; exact isoUtc_length n,
      by rw [hfmt]; exact isoUtc_utc_suffix n,
      by rw [hfmt]; exact isoUtc_year_digits n⟩

/-- Witness for C9: the zero timestamp is falsy and formats to the default
empty string, while a nonzero in-range timestamp is forced to format to
its ISO-8601 UTC rendering, concretely 2023-11-14T22:13:20+00:00. -/
theorem format_timestamp_c9_witness :
    format_timestamp (JVal.num 0) = ""
    ∧ format_timestamp (JVal.num 1700000000) = isoUtcOfTimestamp 1700000000
    ∧ format_timestamp (JVal.num 1700000000) = "2023-11-14T22:13:20+00:00"
    ∧ (format_timestamp (JVal.num 1700000000)).length = 25 := by
  have h := (format_timestamp_c9 (JVal.num 1700000000)).2.2.2 1700000000 rfl
    (by decide) (by decide) (by decide)
  refine ⟨(format_timestamp_c9 (JVal.num 0)).1 rfl, h.1, ?_, h.2.1⟩
  rw [h.1]
  decide

/-! ## Record normalizer: process_payment_links (razorpay_to_sheets.py, lines 239-367)

Each payment link is mapped to one flat row.  The fields relevant to the
claims are embedded; the monetary fields go through Python
float(link.get(key, 0)) and are divided by 100 (paise to rupees).  The
whole per-record body runs in a try/except: a record whose conversion
raises is logged and skipped, and the loop continues, which the embedding
renders as an Option-valued per-record normalizer folded over the batch. -/

structure RawLink where
  id : String
  created_at : JVal
  amount : JVal
  amount_paid : JVal
  first_min_partial_amount : JVal
  status : Option String
  currency : String
  reference_id : String
deriving DecidableEq

structure NormalizedRow where
  id : String
  created_at : String
  amount : ℚ
  amount_paid : ℚ
  status : String
  currency : String
  reference_id : String
  first_min_partial_amount : ℚ
deriving DecidableEq

/-- Per-record body of the for-loop of process_payment_links: none exactly
when the record raises (float() applied to a null or non-numeric monetary
field), mirroring the per-record try/except. -/
def normalizeLink (link : RawLink) : Option NormalizedRow :=
  match pyFloat link.amount, pyFloat link.amount_paid,
      pyFloat link.first_min_partial_amount with
  | some a, some p, some fm =>
    some { id := link.id
         , created_at := format_timestamp link.created_at
         , amount := a / 100
         , amount_paid := p / 100
         , status := link.status.getD "unknown"
         , currency := link.currency
         , reference_id := link.reference_id
         , first_min_partial_amount := fm / 100 }
  | _, _, _ => none

/-- The batch loop of process_payment_links: rows of the non-erroring
records in order, together with the count of skipped records. -/
def processRows : List RawLink → List NormalizedRow × Nat
  | [] => ([], 0)
  | link :: rest =>
    let r := processRows rest
    match normalizeLink link with
    | some row => (row :: r.1, r.2)
    | none => (r.1, r.2 + 1)

/-- C7: normalization produces exactly one row per record that does not
raise, in input order (the filterMap of the per-record normalizer), the
skipped count is the number of erroring records, and row count plus
skipped count equals the batch size; a malformed record only removes
itself, every remaining record of the batch is still processed. -/
theorem process_rows_c7 (links : List RawLink) :
    (processRows links).1 = links.filterMap normalizeLink
    ∧ (processRows links).2 = (links.filter (fun l => (normalizeLink l).isNone)).length
    ∧ (processRows links).1.length + (processRows links).2 = links.length
    ∧ (processRows links).1.length = links.length - (processRows links).2 := by
  have h : (processRows links).1 = links.filterMap normalizeLink
      ∧ (processRows links).2 = (links.filter (fun l => (normalizeLink l).isNone)).length
      ∧ (processRows links).1.length + (processRows links).2 = links.length := by
    induction links with
    | nil => simp [processRows]
    | cons link rest ih =>
      obtain ⟨ih1, ih2, ih3⟩ := ih
      cases hn : normalizeLink link with
      | some row =>
        refine ⟨?_, ?_, ?_⟩
        · simp [processRows, hn, List.filterMap_cons, ih1]
        · simp [processRows, hn, List.filter_cons, ih2]
        · simp only [processRows, hn, List.length_cons]
          omega
      | none =>
        refine ⟨?_, ?_, ?_⟩
        · simp [processRows, hn, List.filterMap_cons, ih1]
        · simp [processRows, hn, List.filter_cons, ih2]
        · simp only [processRows, hn, List.length_cons]
          omega
  exact ⟨h.1, h.2.1, h.2.2, by omega⟩

/-- C5 (amended): every monetary field of a produced row equals the
converted source value divided by 100, and is nonnegative whenever the
source value is nonnegative; the code performs no validation, so a
negative source value yields a negative converted amount. -/
theorem monetary_conversion_c5 (link : RawLink) (row : NormalizedRow)
    (h : normalizeLink link = some row) :
    (∀ q : ℚ, pyFloat link.amount = some q →
      row.amount = q / 100 ∧ (0 ≤ q → 0 ≤ row.amount))
    ∧ (∀ q : ℚ, pyFloat link.amount_paid = some q →
      row.amount_paid = q / 100 ∧ (0 ≤ q → 0 ≤ row.amount_paid))
    ∧ (∀ q : ℚ, pyFloat link.first_min_partial_amount = some q →
      row.first_min_partial_amount = q / 100 ∧ (0 ≤ q → 0 ≤ row.first_min_partial_amount)) := by
  cases ha : pyFloat link.amount with
  | none => simp [normalizeLink, ha] at h
  | some a =>
    cases hp : pyFloat link.amount_paid with
    | none => simp [normalizeLink, ha, hp] at h
    | some p =>
      cases hm : pyFloat link.first_min_partial_amount with
      | none => simp [normalizeLink, ha, hp, hm] at h
      | some fm =>
        simp only [normalizeLink, ha, hp, hm, Option.some.injEq] at h
        subst h
        refine ⟨?_, ?_, ?_⟩ <;> intro q hq <;>
          simp only [Option.some.injEq] at hq <;> subst hq <;>
          exact ⟨rfl, fun h0 => div_nonneg h0 (by norm_num)⟩

/-- A record with a negative monetary value, as the API integer field
space admits. -/
def linkNeg : RawLink :=
  { id := "plink_neg"
  , created_at := JVal.num 1700000000
  , amount := JVal.num (-100)
  , amount_paid := JVal.num 0
  , first_min_partial_amount := JVal.num 0
  , status := some "created"
  , currency := "INR"
  , reference_id := "" }

/-- The row the normalizer produces for `linkNeg`. -/
def rowNeg : NormalizedRow :=
  { id := "plink_neg"
  , created_at := format_timestamp (JVal.num 1700000000)
  , amount := ((-100 : Int) : ℚ) / 100
  , amount_paid := ((0 : Int) : ℚ) / 100
  , status := "created"
  , currency := "INR"
  , reference_id := ""
  , first_min_partial_amount := ((0 : Int) : ℚ) / 100 }

/-- Counterexample to C5 as stated: conversion of a negative minor-unit
value produces a negative monetary field, so converted amounts are not
"never negative". -/
theorem monetary_conversion_c5_counterexample :
    normalizeLink linkNeg = some rowNeg ∧ rowNeg.amount < 0 := by
  constructor
  · rfl
  · show ((-100 : Int) : ℚ) / 100 < 0
    norm_num

/-- A record with the documentation example value 150000 paise. -/
def linkGood : RawLink :=
  { id := "plink_good"
  , created_at := JVal.num 1700000000
  , amount := JVal.num 150000
  , amount_paid := JVal.num 0
  , first_min_partial_amount := JVal.num 0
  , status := some "created"
  , currency := "INR"
  , reference_id := "July-001" }

/-- The row the normalizer produces for `linkGood`. -/
def rowGood : NormalizedRow :=
  { id := "plink_good"
  , created_at := format_timestamp (JVal.num 1700000000)
  , amount := ((150000 : Int) : ℚ) / 100
  , amount_paid := ((0 : Int) : ℚ) / 100
  , status := "created"
  , currency := "INR"
  , reference_id := "July-001"
  , first_min_partial_amount := ((0 : Int) : ℚ) / 100 }

/-- Witness for the amended C5: 150000 paise convert to exactly 1500
rupees, a nonnegative amount. -/
theorem monetary_conversion_c5_witness :
    rowGood.amount = ((150000 : Int) : ℚ) / 100 ∧ 0 ≤ rowGood.amount
    ∧ rowGood.amount = 1500 := by
  have h := (monetary_conversion_c5 linkGood rowGood rfl).1 ((150000 : Int) : ℚ) rfl
  exact ⟨h.1, h.2 (by norm_num), by norm_num [rowGood]⟩

/-! ## Report filter: extract_partial_payments (extract_partial_payments.py, lines 79-163)

The worksheet rows arrive as loosely typed cells.  pandas to_numeric with
errors=coerce turns the amount cells into numbers or NaN; the mask keeps a
row iff amount_paid < amount (false on NaN) and the status equals
"created"; a derived Due Amount column holds amount minus amount_paid; the
result is sorted by Due Amount descending.  sort_values with
ascending=False and the default kind=quicksort guarantees a permutation of
the rows sorted descending on the key; it does not guarantee stability, so
the embedded sort below is used only through those two guarantees and no
theorem relies on its tie order. -/

inductive Cell where
  | num (q : ℚ)
  | text (s : String)
  | empty
deriving DecidableEq

/-- pandas to_numeric with errors=coerce: numbers pass through, numeric
strings parse, anything else is coerced to NaN (modelled as none). -/
def toNumeric : Cell → Option ℚ
  | Cell.num q => some q
  | Cell.text s => parseNumber s
  | Cell.empty => none

structure ERow where
  id : String
  amountCell : Cell
  paidCell : Cell
  status : String
  currency : String
  refId : String
deriving DecidableEq

/-- A report row: the source row augmented with its coerced amounts and the
derived Due Amount. -/
structure RRow where
  base : ERow
  amount : ℚ
  amount_paid : ℚ
  due : ℚ
deriving DecidableEq

/-- The boolean-mask filter and the Due Amount column of
extract_partial_payments, lines 131-141: keep a row iff its coerced
amount_paid is strictly below its coerced amount (false when either is
NaN) and its status is "created"; the kept row carries due = amount -
amount_paid. -/
def reportRows (rows : List ERow) : List RRow :=
  rows.filterMap (fun r =>
    match toNumeric r.paidCell, toNumeric r.amountCell with
    | some p, some a =>
      if p < a ∧ r.status = "created" then some ⟨r, a, p, a - p⟩ else none
    | _, _ => none)

/-- Descending insertion on the due key; used to model the sorted-output
guarantee of sort_values(by=due, ascending=False). -/
def insertDueDesc (r : RRow) : List RRow → List RRow
  | [] => [r]
  | x :: xs => if x.due ≤ r.due then r :: x :: xs else x :: insertDueDesc r xs

/-- Sorting by due descending. -/
def sortByDueDesc : List RRow → List RRow
  | [] => []
  | r :: rest => insertDueDesc r (sortByDueDesc rest)

/-- extract_partial_payments: filter, derive due, sort by due descending. -/
def extract_partial_payments (rows : List ERow) : List RRow :=
  sortByDueDesc (reportRows rows)

theorem insertDueDesc_perm (r : RRow) (l : List RRow) :
    (insertDueDesc r l).Perm (r :: l) := by
  induction l with
  | nil => exact List.Perm.refl _
  | cons x xs ih =>
    by_cases h : x.due ≤ r.due
    · simp only [insertDueDesc, if_pos h]
      exact List.Perm.refl _
    · simp only [insertDueDesc, if_neg h]
      exact (ih.cons x).trans (List.Perm.swap r x xs)

theorem sortByDueDesc_perm (l : List RRow) : (sortByDueDesc l).Perm l := by
  induction l with
  | nil => exact List.Perm.refl _
  | cons r rest ih =>
    exact (insertDueDesc_perm r (sortByDueDesc rest)).trans (ih.cons r)

theorem mem_extract_iff (rows : List ERow) (rr : RRow) :
    rr ∈ extract_partial_payments rows ↔ rr ∈ reportRows rows :=
  (sortByDueDesc_perm (reportRows rows)).mem_iff

/-- C1: a row contributes to the report exactly when its coerced
amount_paid is strictly below its coerced amount and its status equals
"created", and every report row carries due = amount - amount_paid.
Soundness: every report row comes from an input row satisfying the
predicate, with its coerced values and derived due.  Completeness: every
input row satisfying the predicate appears in the report with its derived
due. -/
theorem extract_filter_c1 (rows : List ERow) :
    (∀ rr ∈ extract_partial_payments rows,
      rr.base ∈ rows
      ∧ toNumeric rr.base.amountCell = some rr.amount
      ∧ toNumeric rr.base.paidCell = some rr.amount_paid
      ∧ rr.amount_paid < rr.amount
      ∧ rr.base.status = "created"
      ∧ rr.due = rr.amount - rr.amount_paid)
    ∧ (∀ r ∈ rows, ∀ a p : ℚ,
      toNumeric r.amountCell = some a → toNumeric r.paidCell = some p →
      p < a → r.status = "created" →
      (⟨r, a, p, a - p⟩ : RRow) ∈ extract_partial_payments rows) := by
  constructor
  · intro rr hmem
    rw [mem_extract_iff] at hmem
    obtain ⟨r, hr, hf⟩ := List.mem_filterMap.mp hmem
    cases hp : toNumeric r.paidCell with
    | none => simp [hp] at hf
    | some p =>
      cases ha : toNumeric r.amountCell with
      | none => simp [hp, ha] at hf
      | some a =>
        simp only [hp, ha] at hf
        by_cases hc : p < a ∧ r.status = "created"
        · rw [if_pos hc] at hf
          cases hf
          exact ⟨hr, ha, hp, hc.1, hc.2, rfl⟩
        · rw [if_neg hc] at hf
          cases hf
  · intro r hr a p ha hp hlt hst
    rw [mem_extract_iff]
    refine List.mem_filterMap.mpr ⟨r, hr, ?_⟩
    simp only [hp, ha]
    rw [if_pos ⟨hlt, hst⟩]

/-- A partially paid created link row. -/
def rowA : ERow :=
  { id := "pl_a", amountCell := Cell.num 2000, paidCell := Cell.num 500
  , status := "created", currency := "INR", refId := "July-001" }

/-- A fully paid link row, excluded by the filter. -/
def rowPaid : ERow :=
  { id := "pl_b", amountCell := Cell.num 1000, paidCell := Cell.num 1000
  , status := "paid", currency := "INR", refId := "Aug-002" }

def demoRows : List ERow := [rowA, rowPaid]

/-- Witness for C1: the partially paid created row appears in the report
with due equal to amount minus amount paid. -/
theorem extract_filter_c1_witness :
    (⟨rowA, 2000, 500, (2000 : ℚ) - 500⟩ : RRow) ∈ extract_partial_payments demoRows :=
  (extract_filter_c1 demoRows).2 rowA (List.mem_cons_self _ _) 2000 500 rfl rfl
    (by decide) rfl

/-- C10: a row whose amount cell or amount-paid cell is coerced to the
non-numeric marker (NaN) never reaches the report, whatever its status. -/
theorem coerce_exclude_c10 (rows : List ERow) (r : ERow)
    (h : toNumeric r.amountCell = none ∨ toNumeric r.paidCell = none) :
    ∀ rr ∈ extract_partial_payments rows, rr.base ≠ r := by
  intro rr hmem heq
  rw [mem_extract_iff] at hmem
  obtain ⟨r', hr', hf⟩ := List.mem_filterMap.mp hmem
  cases hp : toNumeric r'.paidCell with
  | none => simp [hp] at hf
  | some p =>
    cases ha : toNumeric r'.amountCell with
    | none => simp [hp, ha] at hf
    | some a =>
      simp only [hp, ha] at hf
      by_cases hc : p < a ∧ r'.status = "created"
      · rw [if_pos hc] at hf
        cases hf
        have heq' : r' = r := heq
        subst heq'
        rcases h with h | h
        · rw [h] at ha
          cases ha
        · rw [h] at hp
          cases hp
      · rw [if_neg hc] at hf
        cases hf

/-- A row whose amount cell holds a non-numeric marker string, with status
"created". -/
def rowBad : ERow :=
  { id := "pl_c", amountCell := Cell.text "N/A", paidCell := Cell.num 0
  , status := "created", currency := "INR", refId := "July-003" }

def demoRowsBad : List ERow := [rowA, rowBad]

/-- Witness for C10: with the non-numeric row present and status
"created", the only report row is the numeric one; the coerced row is not
its source. -/
theorem coerce_exclude_c10_witness :
    (⟨rowA, 2000, 500, (2000 : ℚ) - 500⟩ : RRow).base ≠ rowBad :=
  coerce_exclude_c10 demoRowsBad rowBad (Or.inl rfl)
    ⟨rowA, 2000, 500, (2000 : ℚ) - 500⟩ (List.mem_singleton_self _)

/-- What sort_values(by=due, ascending=False, kind=quicksort) guarantees:
the output is a permutation of the input, sorted descending on due.  The
default quicksort kind gives no stability guarantee. -/
def SortValuesDescAdmissible (inp out : List RRow) : Prop :=
  out.Perm inp ∧ out.Pairwise (fun a b => b.due ≤ a.due)

def tieRowX : RRow := ⟨rowA, 2000, 1000, 1000⟩

def tieRowY : RRow := ⟨rowPaid, 2000, 1000, 1000⟩

/-- Supporting theorem for C4 (code bug): on a report table with two
distinct rows of equal due, both orders satisfy everything
sort_values(ascending=False, kind=quicksort) guarantees, so the contract
the code invokes does not determine the tie order that the claim (and the
spec sentence "stable sort required") prescribe. -/
theorem sort_tie_c4_underdetermined :
    tieRowX.due = tieRowY.due
    ∧ tieRowX ≠ tieRowY
    ∧ SortValuesDescAdmissible [tieRowX, tieRowY] [tieRowX, tieRowY]
    ∧ SortValuesDescAdmissible [tieRowX, tieRowY] [tieRowY, tieRowX] := by
  refine ⟨rfl, by decide, ⟨List.Perm.refl _, ?_⟩, ⟨List.Perm.swap _ _ _, ?_⟩⟩
  · refine List.pairwise_cons.mpr ⟨?_, List.pairwise_singleton _ _⟩
    intro b hb
    rw [List.mem_singleton.mp hb]
    exact le_refl _
  · refine List.pairwise_cons.mpr ⟨?_, List.pairwise_singleton _ _⟩
    intro b hb
    rw [List.mem_singleton.mp hb]
    exact le_refl _

/-! ## Fuzzy column resolution (extract_partial_payments.py, lines 90-128)

Each required semantic role tries the exactly named column first and
otherwise adopts the first column whose lowercased name contains the
target substrings; "amount" without "paid" for the amount role, "amount"
with "paid" for the amount-paid role, "status" for the status role.  If
any of the three resolved names is still absent, a ValueError is raised
naming the missing columns and listing all available columns, and
filtering never proceeds. -/

/-- One role resolution: the exact name if present, else the first fuzzy
match, else the exact name left in place for the required-columns check to
catch. -/
def resolveCol (cols : List String) (exactName : String) (pred : String → Bool) : String :=
  if cols.contains exactName then exactName
  else
    match cols.find? pred with
    | some c => c
    | none => exactName

/-- Fuzzy predicate of the amount role: contains "amount", not "paid". -/
def amountPred (c : String) : Bool := fuzzyHas c "amount" && !(fuzzyHas c "paid")

/-- Fuzzy predicate of the amount-paid role: contains "amount" and "paid". -/
def paidPred (c : String) : Bool := fuzzyHas c "amount" && fuzzyHas c "paid"

/-- Fuzzy predicate of the status role: contains "status". -/
def statusPred (c : String) : Bool := fuzzyHas c "status"

/-- The ValueError of the required-columns check: the missing resolved
names and the available columns. -/
structure SchemaError where
  missing : List String
  available : List String
deriving DecidableEq

/-- The required-columns gate of extract_partial_payments: resolve the
three roles, fail when any resolved name is absent. -/
def resolveSchema (cols : List String) : Except SchemaError (String × String × String) :=
  let amount_col := resolveCol cols "Amount (₹)" amountPred
  let paid_col := resolveCol cols "Amount Paid (₹)" paidPred
  let status_col := resolveCol cols "Status" statusPred
  let missing := [amount_col, paid_col, status_col].filter (fun c => !cols.contains c)
  if missing.isEmpty then Except.ok (amount_col, paid_col, status_col)
  else Except.error ⟨missing, cols⟩

/-- C6: role resolution tries the exact column name first and otherwise
adopts the first column whose lowercased name contains the target
substrings; when any of the three roles stays unresolved the schema gate
fails with an error naming exactly the missing resolved names and carrying
the full column list, and it only succeeds with all three resolved names
present. -/
theorem schema_resolution_c6 (cols : List String) :
    (∀ exactName pred, cols.contains exactName = true →
      resolveCol cols exactName pred = exactName)
    ∧ (∀ exactName pred c, cols.contains exactName = false → cols.find? pred = some c →
      resolveCol cols exactName pred = c)
    ∧ (∀ exactName pred, cols.contains exactName = false → cols.find? pred = none →
      resolveCol cols exactName pred = exactName)
    ∧ (∀ (pred : String → Bool) c, cols.find? pred = some c → pred c = true
      ∧ ∃ pre post, cols = pre ++ c :: post ∧ ∀ x ∈ pre, pred x = false)
    ∧ (∀ e, resolveSchema cols = Except.error e →
      e.available = cols
      ∧ e.missing = [resolveCol cols "Amount (₹)" amountPred,
          resolveCol cols "Amount Paid (₹)" paidPred,
          resolveCol cols "Status" statusPred].filter (fun c => !cols.contains c)
      ∧ e.missing ≠ [])
    ∧ (∀ a p s, resolveSchema cols = Except.ok (a, p, s) →
      cols.contains a = true ∧ cols.contains p = true ∧ cols.contains s = true
      ∧ a = resolveCol cols "Amount (₹)" amountPred
      ∧ p = resolveCol cols "Amount Paid (₹)" paidPred
      ∧ s = resolveCol cols "Status" statusPred) := by
  have hok : ∀ a p s, resolveSchema cols = Except.ok (a, p, s) →
      cols.contains a = true ∧ cols.contains p = true ∧ cols.contains s = true
      ∧ a = resolveCol cols "Amount (₹)" amountPred
      ∧ p = resolveCol cols "Amount Paid (₹)" paidPred
      ∧ s = resolveCol cols "Status" statusPred := by
    intro a p s h
    simp only [resolveSchema] at h
    split at h
    · rename_i hemp
      cases h
      have hall := List.filter_eq_nil_iff.mp (List.isEmpty_iff.mp hemp)
      refine ⟨?_, ?_, ?_, rfl, rfl, rfl⟩
      · have := hall _ (List.mem_cons_self _ _)
        simpa using this
      · have := hall _ (List.mem_cons_of_mem _ (List.mem_cons_self _ _))
        simpa using this
      · have := hall _ (List.mem_cons_of_mem _ (List.mem_cons_of_mem _
          (List.mem_cons_self _ _)))
        simpa using this
    · cases h
  refine ⟨?_, ?_, ?_, ?_, ?_, hok⟩
  · intro exactName pred h
    have hm : exactName ∈ cols := by simpa using h
    simp [resolveCol, hm]
  · intro exactName pred c h hfind
    have hm : exactName ∉ cols := by simpa using h
    simp [resolveCol, hm, hfind]
  · intro exactName pred h hfind
    have hm : exactName ∉ cols := by simpa using h
    simp [resolveCol, hm, hfind]
  · intro pred c h
    obtain ⟨hp, as, bs, heq, hall⟩ := List.find?_eq_some.mp h
    exact ⟨hp, as, bs, heq, fun x hx => by simpa using hall x hx⟩
  · intro e h
    simp only [resolveSchema] at h
    split at h
    · cases h
    · rename_i hemp
      cases h
      refine ⟨rfl, rfl, ?_⟩
      intro hnil
      have hnil' : ([resolveCol cols "Amount (₹)" amountPred,
          resolveCol cols "Amount Paid (₹)" paidPred,
          resolveCol cols "Status" statusPred].filter (fun c => !cols.contains c)) = [] := hnil
      rw [hnil'] at hemp
      simp at hemp

/-- Witness for C6 at concrete inputs: fuzzy resolution adopts the first
matching column when the exact name is absent, and the schema gate reports
exactly the missing resolved names with the full available column list
when nothing matches. -/
theorem schema_resolution_c6_witness :
    resolveCol ["ID", "Total Amount Due", "amount paid"] "Amount (₹)" amountPred
      = "Total Amount Due"
    ∧ (SchemaError.mk ["Amount (₹)", "Amount Paid (₹)", "Status"] ["ID", "Description"]).available
      = ["ID", "Description"] := by
  constructor
  · exact (schema_resolution_c6 ["ID", "Total Amount Due", "amount paid"]).2.1
      "Amount (₹)" amountPred "Total Amount Due" rfl rfl
  · exact ((schema_resolution_c6 ["ID", "Description"]).2.2.2.2.1
      ⟨["Amount (₹)", "Amount Paid (₹)", "Status"], ["ID", "Description"]⟩ rfl).1

/-! ## Summary aggregator: generate_summary (extract_partial_payments.py, lines 197-308)

The report table is split on whether the Reference ID starts with the
literal "July", overall and within each currency group; each bucket holds
a count and a due-amount sum.  When the Reference ID column is missing,
everything lands in the other bucket; when the Currency column is missing,
a single implicit INR group carries the whole table.  The two resolution
outcomes are modelled by the hasRef and hasCurrency flags. -/

structure Bucket where
  count : Nat
  amount : ℚ
deriving DecidableEq

structure CurrencyBuckets where
  total : Bucket
  july : Bucket
  other : Bucket
deriving DecidableEq

structure Summary where
  total : Bucket
  july : Bucket
  other : Bucket
  by_currency : List (String × CurrencyBuckets)
deriving DecidableEq

/-- Sum of the Due Amount column. -/
def dueSum (l : List RRow) : ℚ := (l.map RRow.due).sum

/-- The Python test reference_id.startswith("July"), case sensitive. -/
def isJulyRow (r : RRow) : Bool := "July".data.isPrefixOf r.base.refId.data

/-- Distinct currencies of the table, as pandas groupby keys. -/
def currenciesOf (l : List RRow) : List String :=
  (l.map (fun r => r.base.currency)).dedup

/-- Rows of one currency group. -/
def groupOf (l : List RRow) (c : String) : List RRow :=
  l.filter (fun r => r.base.currency = c)

/-- generate_summary: the early branch when the Reference ID column is
missing puts every row in the other bucket; the main branch splits on the
July prefix; by_currency groups the same statistics per currency, with a
single implicit INR group when the Currency column is missing. -/
def generate_summary (hasRef hasCurrency : Bool) (data : List RRow) : Summary :=
  if hasRef then
    let july_data := data.filter isJulyRow
    let other_data := data.filter (fun r => !isJulyRow r)
    let july_due := dueSum july_data
    let other_due := dueSum other_data
    let total_due := july_due + other_due
    { total := ⟨data.length, total_due⟩
    , july := ⟨july_data.length, july_due⟩
    , other := ⟨other_data.length, other_due⟩
    , by_currency :=
        if hasCurrency then
          (currenciesOf data).map (fun c =>
            (c, { total := ⟨(groupOf data c).length, dueSum (groupOf data c)⟩
                , july := ⟨((groupOf data c).filter isJulyRow).length,
                    dueSum ((groupOf data c).filter isJulyRow)⟩
                , other := ⟨((groupOf data c).filter (fun r => !isJulyRow r)).length,
                    dueSum ((groupOf data c).filter (fun r => !isJulyRow r))⟩ }))
        else
          [("INR", { total := ⟨data.length, total_due⟩
                   , july := ⟨july_data.length, july_due⟩
                   , other := ⟨other_data.length, other_due⟩ })] }
  else
    let total_due := dueSum data
    { total := ⟨data.length, total_due⟩
    , july := ⟨0, 0⟩
    , other := ⟨data.length, total_due⟩
    , by_currency :=
        if hasCurrency then
          (currenciesOf data).map (fun c =>
            (c, { total := ⟨(groupOf data c).length, dueSum (groupOf data c)⟩
                , july := ⟨0, 0⟩
                , other := ⟨(groupOf data c).length, dueSum (groupOf data c)⟩ }))
        else
          [("INR", { total := ⟨data.length, total_due⟩
                   , july := ⟨0, 0⟩
                   , other := ⟨data.length, total_due⟩ })] }

theorem dueSum_groups (data : List RRow) :
    ((currenciesOf data).map (fun c => dueSum (groupOf data c))).sum = dueSum data := by
  have h := sum_groups_eq (currenciesOf data) (fun r : RRow => r.base.currency) RRow.due data
    (List.nodup_dedup _) (fun x hx => List.mem_dedup.mpr (List.mem_map_of_mem _ hx))
  simpa [dueSum, groupOf, currenciesOf] using h

theorem dueSum_partition (l : List RRow) :
    dueSum (l.filter isJulyRow) + dueSum (l.filter (fun r => !isJulyRow r)) = dueSum l :=
  sum_map_filter_partition isJulyRow RRow.due l

theorem length_partition_july (l : List RRow) :
    (l.filter isJulyRow).length + (l.filter (fun r => !isJulyRow r)).length = l.length :=
  (List.length_eq_length_filter_add isJulyRow).symm

/-- C3: in every branch of generate_summary, the grand total amount equals
the sum of the currency groups' total amounts, and both overall and inside
every currency group the total amount is the july amount plus the other
amount and the total count is the july count plus the other count. -/
theorem summary_invariant_c3 (hasRef hasCurrency : Bool) (data : List RRow) :
    (generate_summary hasRef hasCurrency data).total.amount
      = ((generate_summary hasRef hasCurrency data).by_currency.map
          (fun p => p.2.total.amount)).sum
    ∧ (generate_summary hasRef hasCurrency data).total.amount
      = (generate_summary hasRef hasCurrency data).july.amount
        + (generate_summary hasRef hasCurrency data).other.amount
    ∧ (generate_summary hasRef hasCurrency data).total.count
      = (generate_summary hasRef hasCurrency data).july.count
        + (generate_summary hasRef hasCurrency data).other.count
    ∧ ∀ p ∈ (generate_summary hasRef hasCurrency data).by_currency,
        p.2.total.amount = p.2.july.amount + p.2.other.amount
        ∧ p.2.total.count = p.2.july.count + p.2.other.count := by
  cases hasRef <;> cases hasCurrency
  · refine ⟨?_, ?_, ?_, ?_⟩
    · simp [generate_summary]
    · simp [generate_summary]
    · simp [generate_summary]
    · intro p hp
      simp only [generate_summary, Bool.false_eq_true, if_false, List.mem_singleton] at hp
      subst hp
      simp
  · refine ⟨?_, ?_, ?_, ?_⟩
    · simp only [generate_summary, Bool.false_eq_true, if_false, if_true, List.map_map]
      have : ((currenciesOf data).map
          ((fun p : String × CurrencyBuckets => p.2.total.amount) ∘ (fun c =>
            (c, { total := ⟨(groupOf data c).length, dueSum (groupOf data c)⟩
                , july := ⟨0, 0⟩
                , other := ⟨(groupOf data c).length, dueSum (groupOf data c)⟩
                : CurrencyBuckets })))).sum
          = ((currenciesOf data).map (fun c => dueSum (groupOf data c))).sum := by
        congr 1
      rw [this, dueSum_groups]
    · simp [generate_summary]
    · simp [generate_summary]
    · intro p hp
      simp only [generate_summary, Bool.false_eq_true, if_false, if_true,
        List.mem_map] at hp
      obtain ⟨c, _hc, rfl⟩ := hp
      simp
  · refine ⟨?_, ?_, ?_, ?_⟩
    · simp [generate_summary]
    · simp [generate_summary]
    · simp only [generate_summary, if_true]
      have := length_partition_july data
      omega
    · intro p hp
      simp only [generate_summary, Bool.false_eq_true, if_false, if_true,
        List.mem_singleton] at hp
      subst hp
      refine ⟨rfl, ?_⟩
      show data.length = (data.filter isJulyRow).length
        + (data.filter (fun r => !isJulyRow r)).length
      exact (length_partition_july data).symm
  · refine ⟨?_, ?_, ?_, ?_⟩
    · simp only [generate_summary, if_true, List.map_map]
      have h1 : ((currenciesOf data).map
          ((fun p : String × CurrencyBuckets => p.2.total.amount) ∘ (fun c =>
            (c, { total := ⟨(groupOf data c).length, dueSum (groupOf data c)⟩
                , july := ⟨((groupOf data c).filter isJulyRow).length,
                    dueSum ((groupOf data c).filter isJulyRow)⟩
                , other := ⟨((groupOf data c).filter (fun r => !isJulyRow r)).length,
                    dueSum ((groupOf data c).filter (fun r => !isJulyRow r))⟩
                : CurrencyBuckets })))).sum
          = ((currenciesOf data).map (fun c => dueSum (groupOf data c))).sum := by
        congr 1
      rw [h1, dueSum_groups, ← dueSum_partition data]
    · simp [generate_summary]
    · simp only [generate_summary, if_true]
      have := length_partition_july data
      omega
    · intro p hp
      simp only [generate_summary, if_true, List.mem_map] at hp
      obtain ⟨c, _hc, rfl⟩ := hp
      refine ⟨?_, ?_⟩
      · exact (dueSum_partition (groupOf data c)).symm
      · show (groupOf data c).length = ((groupOf data c).filter isJulyRow).length
          + ((groupOf data c).filter (fun r => !isJulyRow r)).length
        exact (length_partition_july (groupOf data c)).symm

/-- Witness for C3 at a concrete table: with both columns resolved, the
grand total amount is the july amount plus the other amount. -/
theorem summary_invariant_c3_witness :
    (generate_summary true true [tieRowX, tieRowY]).total.amount
      = (generate_summary true true [tieRowX, tieRowY]).july.amount
        + (generate_summary true true [tieRowX, tieRowY]).other.amount :=
  (summary_invariant_c3 true true [tieRowX, tieRowY]).2.1

/-! ## Sheet reconciler: create_or_update_sheet_tab (extract_partial_payments.py,
lines 169-195) and update_google_sheet (razorpay_to_sheets.py, lines 369-442)

The worksheet is embedded as a list of rows.  A pre-existing tab is fully
cleared (a fresh tab is created empty), then the header row is written at
A1 and, when the table is nonempty, the data rows are written starting at
A2; update_google_sheet clears and then writes the whole block (header row
included in its data) at A1 in one call.  Writing a block at row index
`start` replaces the rows it covers and keeps any rows beyond it. -/

/-- worksheet.update at A1 with a single header row: row 0 is replaced,
later rows are kept. -/
def writeHeaderAt0 (header : List String) (g : List (List String)) : List (List String) :=
  header :: g.tail

/-- worksheet.update at A2 with the data rows: row 0 is kept (a blank row
when absent), rows 1 onward are replaced by the block, rows beyond the
block are kept. -/
def writeRowsAt1 (vals : List (List String)) (g : List (List String)) : List (List String) :=
  g.headD [] :: (vals ++ g.tail.drop vals.length)

/-- create_or_update_sheet_tab: clear the pre-existing tab (or create an
empty one), write the header at A1, then the data rows at A2 when the
table is nonempty. -/
def create_or_update_sheet_tab (_prior : List (List String)) (header : List String)
    (rows : List (List String)) : List (List String) :=
  let cleared : List (List String) := []
  let afterHeader := writeHeaderAt0 header cleared
  if rows.isEmpty then afterHeader else writeRowsAt1 rows afterHeader

/-- update_google_sheet: clear the worksheet, then write the whole data
block (header row first) at A1; with no data the tab stays cleared. -/
def update_google_sheet (_prior : List (List String)) (data : List (List String)) :
    List (List String) :=
  let cleared : List (List String) := []
  if data.isEmpty then cleared else data ++ cleared.drop data.length

/-- C8: whatever the pre-existing tab contained, after a successful run
its content is exactly the header row followed by the computed rows; no
stale row survives.  The same holds for the full-sheet sync, whose data
block is the header row followed by the processed rows. -/
theorem sheet_overwrite_c8 (prior prior2 : List (List String)) (header : List String)
    (rows : List (List String)) :
    create_or_update_sheet_tab prior header rows = header :: rows
    ∧ update_google_sheet prior2 (header :: rows) = header :: rows := by
  constructor
  · cases rows with
    | nil => simp [create_or_update_sheet_tab, writeHeaderAt0]
    | cons r rs =>
      simp [create_or_update_sheet_tab, writeHeaderAt0, writeRowsAt1]
  · simp [update_google_sheet]
